import Mathlib

/-!
Verification of the advanced-vector container (src/advanced-vector/vector.h).

Shallow embedding: the element type `T` is modelled by `MVal V`, a value of
type `V` that is either `live v` (a constructed object holding value `v`) or
`husk` (a valid but value-unspecified object left behind by a pilfering move,
as for a moved-from `std::string`). A buffer slot is `Option (MVal V)`:
`none` is uninitialized raw memory, `some m` is a constructed object. The
`RawMemory<T> data_` member of `Vector<T>` is a list of slots whose length is
`capacity_`, and `size_` is a natural number.

Relocation during growth writes the same slot values into the new buffer
whether the `if constexpr` picks `uninitialized_move_n` or
`uninitialized_copy_n` (a move transfers the value and additionally husks the
old buffer, which is destroyed right afterwards), so the success-path
operations below are defined once for both instantiations. The exception
paths of `Reserve` and of the reallocating copy branch of `Emplace` are
modelled separately with an explicit throw budget and a destructor log.
-/

namespace AdvancedVector

/-- A constructed C++ object: `live v` holds value `v`; `husk` is the
valid-but-unspecified object left behind by a pilfering move. -/
inductive MVal (V : Type) where
  | live : V → MVal V
  | husk : MVal V
  deriving DecidableEq

/-- A slot of the raw buffer: `none` is uninitialized memory, `some m` holds
a constructed object. -/
abbrev Slot (V : Type) := Option (MVal V)

/-- `Vector<T>`: `buf` models `RawMemory<T> data_` (its length is
`capacity_`), `size` models `size_`. -/
structure VecState (V : Type) where
  buf : List (Slot V)
  size : Nat
  deriving DecidableEq

variable {V : Type} {α : Type}

/-- `Vector::Capacity` (line 184): `data_.Capacity()` is the buffer length. -/
def Capacity (s : VecState V) : Nat := s.buf.length

/-- The content of slot `i` (uninitialized slots and out-of-range reads both
give `none`). -/
def slotAt (s : VecState V) (i : Nat) : Slot V := s.buf.getD i none

/-- The slot left behind after its object is moved from: a live object
becomes a husk; moving from raw memory is meaningless and leaves it raw. -/
def huskOf : Slot V → Slot V
  | some _ => some MVal.husk
  | none => none

/-- Write the slots `xs` into the buffer starting at offset `off` (the effect
of constructing or assigning a range of objects slot by slot). -/
def writeN : List α → Nat → List α → List α
  | b, _, [] => b
  | b, off, x :: xs => writeN (b.set off x) (off + 1) xs

/-- `std::move_backward(begin + first, begin + (first + n), begin + (first + n + 1))`
(line 306): for `t` from `n - 1` down to `0`, move-assign slot `first + t`
into slot `first + t + 1`, husking the source. -/
def moveBackwardN (b : List (Slot V)) (first : Nat) : Nat → List (Slot V)
  | 0 => b
  | n + 1 =>
    let x := b.getD (first + n) none
    moveBackwardN ((b.set (first + n + 1) x).set (first + n) (huskOf x)) first n

/-- `std::move(begin + first, begin + (first + n), begin + (first - 1))`
(line 323): for `t` from `0` to `n - 1`, move-assign slot `first + t` into
slot `first + t - 1`, husking the source. -/
def moveLeftN : List (Slot V) → Nat → Nat → List (Slot V)
  | b, _, 0 => b
  | b, first, n + 1 =>
    let x := b.getD first none
    moveLeftN ((b.set (first - 1) x).set first (huskOf x)) (first + 1) n

/-- `Vector::Reserve` (lines 197-210): no-op when `new_capacity <= capacity`;
otherwise relocate the live range into a fresh buffer of exactly
`new_capacity` slots, swap, and destroy the old buffer. -/
def Reserve (s : VecState V) (c : Nat) : VecState V :=
  if c ≤ s.buf.length then s
  else ⟨writeN (List.replicate c none) 0 (s.buf.take s.size), s.size⟩

/-- `Vector::Resize` (lines 212-222): grow (reserving capacity if needed and
value-initializing the new tail with the default value `d`) or shrink
(destroying the excess tail). -/
def Resize (s : VecState V) (n : Nat) (d : V) : VecState V :=
  if s.size < n then
    let s1 := if s.buf.length < n then Reserve s n else s
    ⟨writeN s1.buf s.size (List.replicate (n - s.size) (some (MVal.live d))), n⟩
  else
    ⟨writeN s.buf n (List.replicate (s.size - n) none), n⟩

/-- `Vector::PopBack` (lines 229-233): destroy the last element, decrement
`size_`. The source asserts `Size() != 0`. -/
def PopBack (s : VecState V) : VecState V :=
  ⟨s.buf.set (s.size - 1) none, s.size - 1⟩

/-- `Vector::EmplaceBack` (lines 235-262), success path, with the argument
pack already evaluated to the constructed value `x`. Branches: `size_ == 0`
reserves capacity 1 and constructs in slot 0; `size_ == Capacity()` acquires
a buffer of `size_ * 2` slots, constructs `x` in its slot `size_`, then
relocates the live range; otherwise constructs directly in slot `size_`.
The reference returned by the source is `data_[size_ - 1]`, the slot at the
old `size_`. -/
def EmplaceBack (s : VecState V) (x : V) : VecState V :=
  if s.size = 0 then
    let s1 := Reserve s 1
    ⟨s1.buf.set 0 (some (MVal.live x)), 1⟩
  else if s.size = s.buf.length then
    ⟨writeN ((List.replicate (s.size * 2) none).set s.size (some (MVal.live x))) 0
      (s.buf.take s.size), s.size + 1⟩
  else
    ⟨s.buf.set s.size (some (MVal.live x)), s.size + 1⟩

/-- `Vector::PushBack` (lines 223-228): both overloads delegate to
`EmplaceBack`. -/
def PushBack (s : VecState V) (x : V) : VecState V := EmplaceBack s x

/-- `Vector::Emplace` (lines 264-317), success path, at offset
`dist = pos - begin()`. `dist == size_` delegates to `EmplaceBack`. The
reallocating branch (`size_ >= Capacity()`) constructs `x` at slot `dist` of
a fresh buffer of `size_ * 2` slots, then relocates `[0, dist)` to the same
offsets and `[dist, size_)` to offsets `[dist + 1, size_ + 1)`. The in-place
branch move-constructs the last element into slot `size_`, runs
`std::move_backward(begin() + dist, end(), end() + 1)`, destroys slot
`dist`, and constructs `x` there. Returns the cursor offset `dist`. -/
def Emplace (s : VecState V) (dist : Nat) (x : V) : VecState V :=
  if dist = s.size then EmplaceBack s x
  else if s.buf.length ≤ s.size then
    ⟨writeN (writeN ((List.replicate (s.size * 2) none).set dist (some (MVal.live x))) 0
        (s.buf.take dist)) (dist + 1) ((s.buf.drop dist).take (s.size - dist)),
      s.size + 1⟩
  else
    let last := s.buf.getD (s.size - 1) none
    let b1 := (s.buf.set s.size last).set (s.size - 1) (huskOf last)
    let b2 := moveBackwardN b1 dist (s.size - dist)
    ⟨(b2.set dist none).set dist (some (MVal.live x)), s.size + 1⟩

/-- `Vector::Insert` (lines 328-333): both overloads delegate to `Emplace`. -/
def Insert (s : VecState V) (dist : Nat) (x : V) : VecState V := Emplace s dist x

/-- `Vector::Erase` (lines 319-327): move-assign `[dist + 1, size_)` one slot
left, destroy the final slot, decrement `size_`; the returned cursor is at
offset `dist` (second component). -/
def Erase (s : VecState V) (dist : Nat) : VecState V × Nat :=
  (⟨(moveLeftN s.buf (dist + 1) (s.size - (dist + 1))).set (s.size - 1) none,
    s.size - 1⟩, dist)

/-- The copy constructor `Vector(const Vector&)` (lines 105-114): a fresh
buffer of exactly `other.size_` slots is filled from the live range of
`other`. Because `other` is const, `GetAddress()` yields `const T*`, so even
in the `uninitialized_move_n` branch the move iterator dereferences to
`const T&&`, which selects the copy constructor of `T`: both branches
copy-construct and the source object is not modified. The result is the pair
(the new vector, the source afterwards — unchanged). -/
def copyCtor (s : VecState V) : VecState V × VecState V :=
  (⟨writeN (List.replicate s.size none) 0 (s.buf.take s.size), s.size⟩, s)

/-- The copy assignment `operator=(const Vector&)` (lines 126-146) for
distinct operands: copy-and-swap when `rhs.size_ > Capacity()`; otherwise
copy-assign over the common part and either copy-construct the missing tail
or destroy the excess tail. (Self-assignment is a guarded no-op in the
source and is not modelled.) -/
def copyAssign (t s : VecState V) : VecState V :=
  if t.buf.length < s.size then (copyCtor s).1
  else if t.size < s.size then
    ⟨writeN t.buf 0 (s.buf.take s.size), s.size⟩
  else
    ⟨writeN (writeN t.buf 0 (s.buf.take s.size)) s.size
      (List.replicate (t.size - s.size) none), s.size⟩

/-- `std::uninitialized_copy_n` with a throw budget standing for an
instrumented element type: the first `budget` copy-constructions succeed and
the next one throws. `ok ys` returns the constructed slots; `error j` means
the `(j + 1)`-th copy-construction threw after `j` elements had been
constructed — the algorithm destroys exactly those `j` before propagating. -/
def copyNBudget : Nat → List (Slot V) → Except Nat (List (Slot V))
  | _, [] => .ok []
  | 0, _ :: _ => .error 0
  | b + 1, x :: xs =>
    match copyNBudget b xs with
    | .ok ys => .ok (x :: ys)
    | .error j => .error (j + 1)

/-- `Vector::Reserve` (lines 197-210) for a copy-relocating `T` with a throw
budget. `error (s2, k, released)` means the exception propagated with the
container in state `s2`, exactly `k` destructors having run on the aborted
new buffer (the rollback inside `uninitialized_copy_n`), and the new buffer
released (the local `RawMemory` is destroyed during unwinding). -/
def ReserveBudget (s : VecState V) (c : Nat) (budget : Nat) :
    Except (VecState V × Nat × Bool) (VecState V) :=
  if c ≤ s.buf.length then .ok s
  else
    match copyNBudget budget (s.buf.take s.size) with
    | .ok ys => .ok ⟨writeN (List.replicate c none) 0 ys, s.size⟩
    | .error j => .error (s, j, true)

/-- The reallocating branch of `Vector::Emplace` (lines 272-302) for a
copy-relocating `T`, instrumented. `insertOk` tells whether the initial
`new (new_data + dist) T(args...)` succeeds; `budget` bounds the number of
copy-constructions into the new buffer that succeed before one throws.
On an exception the result is `error (s2, log, released)`: `s2` is the
container state, `log` lists the new-buffer slot indices on which a
destructor ran, in order, and `released` tells whether the new buffer was
freed. The three throwing paths of the source are:
the initial insertion throws (nothing yet constructed, buffer released);
the first `uninitialized_copy_n` throws after `j` copies (its rollback
destroys slots `[0, j)`, then the outer catch destroys slot `dist`);
the second `uninitialized_copy_n` throws after `j` copies (its rollback
destroys slots `[dist + 1, dist + 1 + j)`, the inner catch destroys slots
`[0, dist + 1)`, and the outer catch destroys slot `dist` once more). -/
def EmplaceReallocCopy (s : VecState V) (dist : Nat) (x : V) (insertOk : Bool)
    (budget : Nat) : Except (VecState V × List Nat × Bool) (VecState V) :=
  if insertOk = false then .error (s, [], true)
  else
    let nb0 := (List.replicate (s.size * 2) none).set dist (some (MVal.live x))
    match copyNBudget budget (s.buf.take dist) with
    | .error j => .error (s, List.range j ++ [dist], true)
    | .ok ys =>
      let nb1 := writeN nb0 0 ys
      match copyNBudget (budget - dist) ((s.buf.drop dist).take (s.size - dist)) with
      | .error j =>
        .error (s, (List.range j).map (· + (dist + 1)) ++ List.range (dist + 1)
          ++ [dist], true)
      | .ok zs => .ok ⟨writeN nb1 (dist + 1) zs, s.size + 1⟩

/-- The in-place branch of `Vector::Emplace` (lines 303-316) when the final
`new (data_ + dist) T(args...)` throws: the last element has been
move-constructed into slot `size_`, the tail has been shifted by
`move_backward`, slot `dist` has been destroyed, and the catch handler then
destroys slot `size_` and rethrows, leaving `size_` unchanged. The result is
the container state after the exception escapes. -/
def EmplaceInPlaceCtorThrow (s : VecState V) (dist : Nat) : VecState V :=
  let last := s.buf.getD (s.size - 1) none
  let b1 := (s.buf.set s.size last).set (s.size - 1) (huskOf last)
  let b2 := moveBackwardN b1 dist (s.size - dist)
  ⟨(b2.set dist none).set s.size none, s.size⟩

/-- The class invariants of `Vector` as stated by the specification:
`size_ <= capacity_`, slots `[0, size_)` hold constructed objects, slots
`[size_, capacity_)` are uninitialized, and a zero-capacity vector is
empty. -/
def WF (s : VecState V) : Prop :=
  s.size ≤ s.buf.length ∧
  (∀ i, i < s.size → s.buf.getD i none ≠ none) ∧
  (∀ i, i < s.buf.length → s.size ≤ i → s.buf.getD i none = none) ∧
  (s.buf.length = 0 → s.size = 0)

/-- The states reachable through the public operations of `Vector` when every
operation completes normally (no exception). The hypotheses on the offsets
mirror the asserts of the source. Move construction, move assignment and
`Swap` only exchange or empty out already-reachable states (the emptied
source is the default state), so they introduce no further states. -/
inductive Reachable : VecState V → Prop where
  | empty : Reachable ⟨[], 0⟩
  | sized (n : Nat) (d : V) : Reachable ⟨List.replicate n (some (MVal.live d)), n⟩
  | copy {s : VecState V} : Reachable s → Reachable (copyCtor s).1
  | assign {t s : VecState V} : Reachable t → Reachable s → Reachable (copyAssign t s)
  | reserve {s : VecState V} (c : Nat) : Reachable s → Reachable (Reserve s c)
  | resize {s : VecState V} (n : Nat) (d : V) : Reachable s → Reachable (Resize s n d)
  | pushBack {s : VecState V} (x : V) : Reachable s → Reachable (EmplaceBack s x)
  | emplace {s : VecState V} (k : Nat) (x : V) : Reachable s → k ≤ s.size →
      Reachable (Emplace s k x)
  | erase {s : VecState V} (k : Nat) : Reachable s → k < s.size →
      Reachable (Erase s k).1
  | popBack {s : VecState V} : Reachable s → s.size ≠ 0 → Reachable (PopBack s)

/-! Basic facts about `List.getD`, `List.set` and the range writers. -/

theorem getD_of_len_le {l : List α} {i : Nat} {d : α} (h : l.length ≤ i) :
    l.getD i d = d := by
  induction l generalizing i with
  | nil => rfl
  | cons x xs ih =>
    cases i with
    | zero => simp at h
    | succ i =>
      have : xs.length ≤ i := by simpa using h
      simpa [List.getD_cons_succ] using ih this

theorem set_getD (l : List α) (i j : Nat) (a d : α) :
    (l.set i a).getD j d = if i = j ∧ j < l.length then a else l.getD j d := by
  induction l generalizing i j with
  | nil => simp
  | cons x xs ih =>
    cases i with
    | zero =>
      cases j with
      | zero => simp
      | succ j => simp [List.getD_cons_succ]
    | succ i =>
      cases j with
      | zero => simp
      | succ j =>
        simp only [List.set_cons_succ, List.getD_cons_succ, ih, List.length_cons]
        by_cases h : i = j ∧ j < xs.length
        · rw [if_pos h, if_pos ⟨by omega, by omega⟩]
        · rw [if_neg h, if_neg (by omega)]

theorem replicate_getD (n i : Nat) (a d : α) :
    (List.replicate n a).getD i d = if i < n then a else d := by
  induction n generalizing i with
  | zero => simp
  | succ n ih =>
    cases i with
    | zero => simp [List.replicate_succ]
    | succ i =>
      rw [List.replicate_succ, List.getD_cons_succ, ih]
      by_cases h : i < n
      · rw [if_pos h, if_pos (by omega)]
      · rw [if_neg h, if_neg (by omega)]

theorem take_getD (l : List α) (k i : Nat) (d : α) (h : i < k) :
    (l.take k).getD i d = l.getD i d := by
  induction l generalizing k i with
  | nil => simp
  | cons x xs ih =>
    cases k with
    | zero => omega
    | succ k =>
      cases i with
      | zero => simp
      | succ i =>
        rw [List.take_succ_cons, List.getD_cons_succ, List.getD_cons_succ]
        exact ih k i (by omega)

theorem drop_getD (l : List α) (k i : Nat) (d : α) :
    (l.drop k).getD i d = l.getD (k + i) d := by
  induction l generalizing k with
  | nil => simp
  | cons x xs ih =>
    cases k with
    | zero => simp
    | succ k =>
      rw [List.drop_succ_cons, ih k]
      have h : k + 1 + i = (k + i) + 1 := by omega
      rw [h, List.getD_cons_succ]

theorem writeN_length (xs : List α) (b : List α) (off : Nat) :
    (writeN b off xs).length = b.length := by
  induction xs generalizing b off with
  | nil => rfl
  | cons x xs ih => simpa [writeN] using ih (b.set off x) (off + 1)

theorem writeN_getD (xs : List α) (b : List α) (off i : Nat) (d : α) :
    (writeN b off xs).getD i d =
      if off ≤ i ∧ i < off + xs.length ∧ i < b.length then xs.getD (i - off) d
      else b.getD i d := by
  induction xs generalizing b off with
  | nil =>
    rw [writeN, if_neg]
    simp only [List.length_nil]
    omega
  | cons x xs ih =>
    rw [writeN, ih, set_getD, List.length_set]
    by_cases hi : i = off
    · subst hi
      rw [if_neg (by omega)]
      by_cases hl : i < b.length
      · rw [if_pos ⟨rfl, hl⟩, if_pos ⟨le_refl i, by simp; omega⟩]
        simp
      · rw [if_neg (by omega), if_neg (by simp; omega), getD_of_len_le (by omega)]
    · by_cases hc : off + 1 ≤ i ∧ i < off + 1 + xs.length ∧ i < b.length
      · rw [if_pos hc, if_pos ⟨by omega, by simp; omega⟩]
        have h1 : i - off = (i - (off + 1)) + 1 := by omega
        rw [h1]
        rfl
      · rw [if_neg hc, if_neg (fun h => hi h.1.symm), if_neg (by simp; omega)]

theorem huskOf_ne_none {x : Slot V} (h : x ≠ none) : huskOf x ≠ none := by
  cases x with
  | none => exact absurd rfl h
  | some m => simp [huskOf]

theorem moveBackwardN_length (n : Nat) (b : List (Slot V)) (first : Nat) :
    (moveBackwardN b first n).length = b.length := by
  induction n generalizing b with
  | zero => rfl
  | succ n ih => simp [moveBackwardN, ih]

theorem moveBackwardN_getD_out (n : Nat) (b : List (Slot V)) (first i : Nat)
    (h : i < first ∨ first + n < i) :
    (moveBackwardN b first n).getD i none = b.getD i none := by
  induction n generalizing b with
  | zero => rfl
  | succ n ih =>
    rw [moveBackwardN, ih _ (by omega), set_getD, set_getD,
      if_neg (by omega), if_neg (by omega)]

theorem moveBackwardN_ne_none (n : Nat) (b : List (Slot V)) (first : Nat)
    (hlen : first + n < b.length)
    (hb : ∀ j, first ≤ j → j ≤ first + n → b.getD j none ≠ none) :
    ∀ j, first ≤ j → j ≤ first + n → (moveBackwardN b first n).getD j none ≠ none := by
  induction n generalizing b with
  | zero =>
    intro j h1 h2
    exact hb j h1 h2
  | succ n ih =>
    have hx : b.getD (first + n) none ≠ none := hb _ (by omega) (by omega)
    rw [moveBackwardN]
    set b1 := ((b.set (first + n + 1) (b.getD (first + n) none)).set (first + n)
      (huskOf (b.getD (first + n) none))) with hb1def
    have hlen1 : b1.length = b.length := by simp [hb1def]
    have hb1 : ∀ j, first ≤ j → j ≤ first + n → b1.getD j none ≠ none := by
      intro j h1 h2
      rw [hb1def, set_getD, set_getD]
      by_cases hj : j = first + n
      · rw [if_pos ⟨hj.symm, by simp; omega⟩]
        exact huskOf_ne_none hx
      · rw [if_neg (by omega), if_neg (by omega)]
        exact hb j h1 (by omega)
    intro j h1 h2
    by_cases hj : j ≤ first + n
    · exact ih b1 (by omega) hb1 j h1 hj
    · have hj2 : j = first + n + 1 := by omega
      subst hj2
      rw [moveBackwardN_getD_out n b1 first _ (Or.inr (by omega)), hb1def,
        set_getD, if_neg (by omega), set_getD, if_pos ⟨rfl, by omega⟩]
      exact hx

theorem moveLeftN_length (n : Nat) (b : List (Slot V)) (first : Nat) :
    (moveLeftN b first n).length = b.length := by
  induction n generalizing b first with
  | zero => rfl
  | succ n ih => simp [moveLeftN, ih]

theorem moveLeftN_getD_lt (n : Nat) (b : List (Slot V)) (first i : Nat)
    (h : i + 1 < first) :
    (moveLeftN b first n).getD i none = b.getD i none := by
  induction n generalizing b first with
  | zero => rfl
  | succ n ih =>
    rw [moveLeftN, ih _ _ (by omega), set_getD, set_getD,
      if_neg (by omega), if_neg (by omega)]

theorem moveLeftN_getD_ge (n : Nat) (b : List (Slot V)) (first i : Nat)
    (h : first + n ≤ i) :
    (moveLeftN b first n).getD i none = b.getD i none := by
  induction n generalizing b first with
  | zero => rfl
  | succ n ih =>
    rw [moveLeftN, ih _ _ (by omega), set_getD, set_getD,
      if_neg (by omega), if_neg (by omega)]

theorem moveLeftN_getD_mid (n : Nat) (b : List (Slot V)) (first i : Nat)
    (hf : 1 ≤ first) (hlen : first + n ≤ b.length)
    (h1 : first ≤ i + 1) (h2 : i + 1 < first + n) :
    (moveLeftN b first n).getD i none = b.getD (i + 1) none := by
  induction n generalizing b first with
  | zero => omega
  | succ n ih =>
    rw [moveLeftN]
    set x := b.getD first none with hxdef
    set b1 := (b.set (first - 1) x).set first (huskOf x) with hb1def
    have hlen1 : b1.length = b.length := by simp [hb1def]
    by_cases hi : i + 1 = first
    · rw [moveLeftN_getD_lt n b1 (first + 1) i (by omega), hb1def,
        set_getD, if_neg (by omega), set_getD, if_pos ⟨by omega, by omega⟩, hxdef, hi]
    · rw [ih b1 (first + 1) (by omega) (by omega) (by omega) (by omega), hb1def,
        set_getD, if_neg (by omega), set_getD, if_neg (by omega)]

/-! Characterization of the operations, and preservation of the invariants. -/

theorem Reserve_size (s : VecState V) (c : Nat) : (Reserve s c).size = s.size := by
  unfold Reserve
  split <;> rfl

theorem Reserve_capacity (s : VecState V) (c : Nat) :
    Capacity (Reserve s c) = max c (Capacity s) := by
  unfold Reserve Capacity
  split
  · omega
  · simp only [writeN_length, List.length_replicate]
    omega

theorem Reserve_slot (s : VecState V) (c : Nat) (h : s.size ≤ Capacity s)
    (i : Nat) (hi : i < s.size) : slotAt (Reserve s c) i = slotAt s i := by
  unfold Reserve slotAt
  split
  · rfl
  · rename_i hc
    unfold Capacity at h
    rw [writeN_getD, if_pos ⟨by omega, by simp; omega, by simp; omega⟩]
    simp only [Nat.sub_zero]
    exact take_getD _ _ _ _ hi

theorem Reserve_slot_none (s : VecState V) (c : Nat) (h : WF s)
    (i : Nat) (hi : s.size ≤ i) : slotAt (Reserve s c) i = none := by
  obtain ⟨h1, h2, h3, h4⟩ := h
  unfold Reserve slotAt
  split
  · by_cases hil : i < s.buf.length
    · exact h3 i hil hi
    · exact getD_of_len_le (by omega)
  · rw [writeN_getD, if_neg (by simp; omega), replicate_getD]
    split <;> rfl

theorem wf_Reserve {s : VecState V} (c : Nat) (h : WF s) : WF (Reserve s c) := by
  have hcap : Capacity (Reserve s c) = max c (Capacity s) := Reserve_capacity s c
  have hsz : (Reserve s c).size = s.size := Reserve_size s c
  obtain ⟨h1, h2, h3, h4⟩ := h
  refine ⟨?_, ?_, ?_, ?_⟩
  · unfold Capacity at hcap
    rw [hsz, hcap]
    omega
  · intro i hi
    rw [hsz] at hi
    have := Reserve_slot s c h1 i hi
    unfold slotAt at this
    rw [this]
    exact h2 i hi
  · intro i _ hi
    rw [hsz] at hi
    have := Reserve_slot_none s c ⟨h1, h2, h3, h4⟩ i hi
    unfold slotAt at this
    rw [this]
  · intro hl
    unfold Capacity at hcap
    omega

theorem Resize_size (s : VecState V) (n : Nat) (d : V) : (Resize s n d).size = n := by
  unfold Resize
  split <;> rfl

theorem Resize_capacity (s : VecState V) (n : Nat) (d : V) :
    Capacity s ≤ Capacity (Resize s n d) := by
  unfold Resize
  split
  · split
    · rename_i hr
      have := Reserve_capacity s n
      unfold Capacity at this ⊢
      simp only [writeN_length]
      omega
    · unfold Capacity
      simp [writeN_length]
  · unfold Capacity
    simp [writeN_length]

theorem WF_mk {b : List (Slot V)} {n : Nat} (h1 : n ≤ b.length)
    (h2 : ∀ i, i < n → b.getD i none ≠ none)
    (h3 : ∀ i, i < b.length → n ≤ i → b.getD i none = none) :
    WF ⟨b, n⟩ :=
  ⟨h1, h2, h3, fun hl => by
    have hl2 : b.length = 0 := hl
    show n = 0
    omega⟩

theorem wf_Resize {s : VecState V} (n : Nat) (d : V) (h : WF s) : WF (Resize s n d) := by
  obtain ⟨h1, h2, h3, h4⟩ := h
  unfold Resize
  split
  · rename_i hlt
    set s1 := if s.buf.length < n then Reserve s n else s with hs1def
    have hwf1 : WF s1 := by
      rw [hs1def]
      split
      · exact wf_Reserve n ⟨h1, h2, h3, h4⟩
      · exact ⟨h1, h2, h3, h4⟩
    have hsz1 : s1.size = s.size := by
      rw [hs1def]
      split
      · exact Reserve_size s n
      · rfl
    have hcap1 : n ≤ s1.buf.length := by
      rw [hs1def]
      split
      · have := Reserve_capacity s n
        unfold Capacity at this
        omega
      · omega
    obtain ⟨g1, g2, g3, g4⟩ := hwf1
    refine WF_mk ?_ ?_ ?_
    · rw [writeN_length]
      omega
    · intro i hi
      rw [writeN_getD]
      by_cases hlo : i < s.size
      · rw [if_neg (by simp; omega)]
        rw [hsz1] at g2
        exact g2 i hlo
      · rw [if_pos ⟨by omega, by simp; omega, by omega⟩, replicate_getD,
          if_pos (by omega)]
        simp
    · intro i hil hi
      rw [writeN_length] at hil
      rw [writeN_getD, if_neg (by simp; omega)]
      exact g3 i hil (by omega)
  · rename_i hge
    refine WF_mk ?_ ?_ ?_
    · rw [writeN_length]
      omega
    · intro i hi
      rw [writeN_getD, if_neg (by simp; omega)]
      exact h2 i (by omega)
    · intro i hil hi
      rw [writeN_length] at hil
      rw [writeN_getD]
      by_cases hup : i < s.size
      · rw [if_pos ⟨by omega, by simp; omega, by omega⟩, replicate_getD]
        split <;> rfl
      · rw [if_neg (by simp; omega)]
        exact h3 i hil (by omega)

theorem PopBack_size (s : VecState V) : (PopBack s).size = s.size - 1 := rfl

theorem PopBack_capacity (s : VecState V) : Capacity (PopBack s) = Capacity s := by
  unfold PopBack Capacity
  simp

theorem wf_PopBack {s : VecState V} (h : WF s) (_hne : s.size ≠ 0) : WF (PopBack s) := by
  obtain ⟨h1, h2, h3, h4⟩ := h
  unfold PopBack
  refine WF_mk ?_ ?_ ?_
  · rw [List.length_set]
    omega
  · intro i hi
    rw [set_getD, if_neg (by omega)]
    exact h2 i (by omega)
  · intro i hil hi
    rw [List.length_set] at hil
    rw [set_getD]
    by_cases he : i = s.size - 1
    · rw [if_pos ⟨he.symm, by omega⟩]
    · rw [if_neg (by omega)]
      exact h3 i hil (by omega)

theorem EmplaceBack_size (s : VecState V) (x : V) :
    (EmplaceBack s x).size = s.size + 1 := by
  unfold EmplaceBack
  split
  · rename_i h0
    show 1 = s.size + 1
    omega
  · split <;> rfl

theorem EmplaceBack_capacity (s : VecState V) (x : V) (h : s.size ≤ Capacity s) :
    Capacity (EmplaceBack s x) =
      if s.size = Capacity s then max 1 (2 * Capacity s) else Capacity s := by
  unfold Capacity at h ⊢
  unfold EmplaceBack
  split
  · rename_i h0
    show ((Reserve s 1).buf.set 0 (some (MVal.live x))).length = _
    rw [List.length_set]
    have := Reserve_capacity s 1
    unfold Capacity at this
    rw [this]
    split <;> omega
  · rename_i h0
    split
    · rename_i hf
      show (writeN _ 0 _).length = _
      rw [writeN_length, List.length_set, List.length_replicate]
      omega
    · rename_i hf
      show (s.buf.set s.size (some (MVal.live x))).length = _
      rw [List.length_set]

theorem EmplaceBack_slot_new (s : VecState V) (x : V) (h : s.size ≤ Capacity s) :
    slotAt (EmplaceBack s x) s.size = some (MVal.live x) := by
  unfold Capacity at h
  unfold EmplaceBack slotAt
  split
  · rename_i h0
    show ((Reserve s 1).buf.set 0 (some (MVal.live x))).getD s.size none = _
    have hc := Reserve_capacity s 1
    unfold Capacity at hc
    rw [set_getD, h0, if_pos ⟨rfl, by omega⟩]
  · rename_i h0
    split
    · rename_i hf
      show (writeN _ 0 (s.buf.take s.size)).getD s.size none = _
      have hlt : (s.buf.take s.size).length = s.size := by
        rw [List.length_take]
        omega
      rw [writeN_getD, hlt, if_neg (by omega), set_getD,
        if_pos ⟨rfl, by rw [List.length_replicate]; omega⟩]
    · rename_i hf
      show (s.buf.set s.size (some (MVal.live x))).getD s.size none = _
      rw [set_getD, if_pos ⟨rfl, by omega⟩]

theorem EmplaceBack_slot_old (s : VecState V) (x : V)
    (i : Nat) (hi : i < s.size) :
    slotAt (EmplaceBack s x) i = slotAt s i := by
  unfold EmplaceBack slotAt
  split
  · omega
  · rename_i h0
    split
    · rename_i hf
      show (writeN _ 0 (s.buf.take s.size)).getD i none = _
      have hlt : (s.buf.take s.size).length = s.size := by
        rw [List.length_take]
        omega
      rw [writeN_getD, hlt, List.length_set, List.length_replicate,
        if_pos ⟨by omega, by omega, by omega⟩]
      simp only [Nat.sub_zero]
      exact take_getD _ _ _ _ hi
    · rename_i hf
      show (s.buf.set s.size (some (MVal.live x))).getD i none = _
      rw [set_getD, if_neg (by omega)]

theorem EmplaceBack_slot_none (s : VecState V) (x : V) (h : WF s)
    (i : Nat) (hi : s.size + 1 ≤ i) :
    slotAt (EmplaceBack s x) i = none := by
  obtain ⟨h1, h2, h3, h4⟩ := h
  unfold EmplaceBack slotAt
  split
  · rename_i h0
    show ((Reserve s 1).buf.set 0 (some (MVal.live x))).getD i none = _
    rw [set_getD, if_neg (by omega)]
    have := Reserve_slot_none s 1 ⟨h1, h2, h3, h4⟩ i (by omega)
    unfold slotAt at this
    exact this
  · rename_i h0
    split
    · rename_i hf
      show (writeN _ 0 (s.buf.take s.size)).getD i none = _
      have hlt : (s.buf.take s.size).length = s.size := by
        rw [List.length_take]
        omega
      rw [writeN_getD, hlt, if_neg (by omega), set_getD, if_neg (by omega),
        replicate_getD]
      split <;> rfl
    · rename_i hf
      show (s.buf.set s.size (some (MVal.live x))).getD i none = _
      rw [set_getD, if_neg (by omega)]
      by_cases hil : i < s.buf.length
      · exact h3 i hil (by omega)
      · exact getD_of_len_le (by omega)

theorem wf_EmplaceBack {s : VecState V} (x : V) (h : WF s) : WF (EmplaceBack s x) := by
  have hcap := EmplaceBack_capacity s x h.1
  have hsz := EmplaceBack_size s x
  refine ⟨?_, ?_, ?_, ?_⟩
  · unfold Capacity at hcap
    rw [hsz, hcap]
    have h1 := h.1
    split <;> omega
  · intro i hi
    rw [hsz] at hi
    by_cases hlt : i < s.size
    · have := EmplaceBack_slot_old s x i hlt
      unfold slotAt at this
      rw [this]
      exact h.2.1 i hlt
    · have hieq : i = s.size := by omega
      subst hieq
      have := EmplaceBack_slot_new s x h.1
      unfold slotAt at this
      rw [this]
      simp
  · intro i _ hi
    rw [hsz] at hi
    have := EmplaceBack_slot_none s x h i hi
    unfold slotAt at this
    rw [this]
  · intro hl
    unfold Capacity at hcap
    rw [hsz]
    rw [hl] at hcap
    have h1 := h.1
    split at hcap <;> omega

theorem Emplace_size (s : VecState V) (dist : Nat) (x : V) :
    (Emplace s dist x).size = s.size + 1 := by
  unfold Emplace
  split
  · exact EmplaceBack_size s x
  · split
    · rfl
    · rfl

theorem Emplace_capacity (s : VecState V) (dist : Nat) (x : V)
    (h : s.size ≤ Capacity s) (hd : dist ≤ s.size) :
    Capacity (Emplace s dist x) =
      if s.size = Capacity s then max 1 (2 * Capacity s) else Capacity s := by
  unfold Emplace
  split
  · exact EmplaceBack_capacity s x h
  · rename_i hne
    have hdlt : dist < s.size := by omega
    unfold Capacity at h ⊢
    split
    · rename_i hle
      show (writeN _ (dist + 1) _).length = _
      rw [writeN_length, writeN_length, List.length_set, List.length_replicate,
        if_pos (by omega)]
      omega
    · rename_i hgt
      show (((moveBackwardN _ dist (s.size - dist)).set dist none).set dist
        (some (MVal.live x))).length = _
      rw [List.length_set, List.length_set, moveBackwardN_length,
        List.length_set, List.length_set, if_neg (by omega)]

theorem wf_Emplace {s : VecState V} (dist : Nat) (x : V) (h : WF s)
    (hd : dist ≤ s.size) : WF (Emplace s dist x) := by
  obtain ⟨h1, h2, h3, h4⟩ := h
  unfold Emplace
  split
  · exact wf_EmplaceBack x ⟨h1, h2, h3, h4⟩
  · rename_i hne
    have hdlt : dist < s.size := by omega
    have hs1 : 1 ≤ s.size := by omega
    split
    · rename_i hle
      have hsc : s.size = s.buf.length := by omega
      have htk : (s.buf.take dist).length = dist := by
        rw [List.length_take]
        omega
      have htk2 : ((s.buf.drop dist).take (s.size - dist)).length = s.size - dist := by
        rw [List.length_take, List.length_drop]
        omega
      refine WF_mk ?_ ?_ ?_
      · rw [writeN_length, writeN_length, List.length_set, List.length_replicate]
        omega
      · intro i hi
        rw [writeN_getD, htk2, writeN_length, List.length_set, List.length_replicate]
        by_cases hup : dist + 1 ≤ i
        · rw [if_pos ⟨hup, by omega, by omega⟩, take_getD _ _ _ _ (by omega), drop_getD]
          have heq : dist + (i - (dist + 1)) = i - 1 := by omega
          rw [heq]
          exact h2 (i - 1) (by omega)
        · rw [if_neg (by omega), writeN_getD, htk, List.length_set,
            List.length_replicate]
          by_cases hlo : i < dist
          · rw [if_pos ⟨by omega, by omega, by omega⟩]
            simp only [Nat.sub_zero]
            rw [take_getD _ _ _ _ hlo]
            exact h2 i (by omega)
          · have hie : i = dist := by omega
            subst hie
            rw [if_neg (by omega), set_getD, if_pos ⟨rfl, by rw [List.length_replicate]; omega⟩]
            simp
      · intro i hil hi
        rw [writeN_length, writeN_length, List.length_set, List.length_replicate] at hil
        rw [writeN_getD, htk2, writeN_length, List.length_set, List.length_replicate,
          if_neg (by omega), writeN_getD, htk, List.length_set, List.length_replicate,
          if_neg (by omega), set_getD, if_neg (by omega), replicate_getD]
        split <;> rfl
    · rename_i hgt
      have hslt : s.size < s.buf.length := by omega
      have hlast : s.buf.getD (s.size - 1) none ≠ none := h2 (s.size - 1) (by omega)
      show WF ⟨((moveBackwardN ((s.buf.set s.size (s.buf.getD (s.size - 1) none)).set
        (s.size - 1) (huskOf (s.buf.getD (s.size - 1) none))) dist (s.size - dist)).set
        dist none).set dist (some (MVal.live x)), s.size + 1⟩
      set last := s.buf.getD (s.size - 1) none with hlastdef
      set b1 := (s.buf.set s.size last).set (s.size - 1) (huskOf last) with hb1def
      have hb1len : b1.length = s.buf.length := by simp [hb1def]
      have hsetlen : (s.buf.set s.size last).length = s.buf.length := by
        rw [List.length_set]
      have hb1slot : ∀ j, dist ≤ j → j ≤ s.size → b1.getD j none ≠ none := by
        intro j hj1 hj2
        rw [hb1def, set_getD, set_getD]
        by_cases hj3 : j = s.size - 1
        · rw [if_pos ⟨hj3.symm, by omega⟩]
          exact huskOf_ne_none hlast
        · rw [if_neg (by omega)]
          by_cases hj4 : j = s.size
          · rw [if_pos ⟨hj4.symm, by omega⟩]
            exact hlast
          · rw [if_neg (by omega)]
            exact h2 j (by omega)
      have hb1out : ∀ j, j < dist ∨ s.size < j → b1.getD j none = s.buf.getD j none := by
        intro j hj
        rw [hb1def, set_getD, set_getD, if_neg (by omega), if_neg (by omega)]
      set b2 := moveBackwardN b1 dist (s.size - dist) with hb2def
      have hb2len : b2.length = s.buf.length := by
        rw [hb2def, moveBackwardN_length, hb1len]
      have hb2slot : ∀ j, dist ≤ j → j ≤ s.size → b2.getD j none ≠ none := by
        intro j hj1 hj2
        rw [hb2def]
        exact moveBackwardN_ne_none (s.size - dist) b1 dist (by omega)
          (fun j hj1 hj2 => hb1slot j hj1 (by omega)) j hj1 (by omega)
      have hb2out : ∀ j, j < dist ∨ s.size < j → b2.getD j none = s.buf.getD j none := by
        intro j hj
        rw [hb2def, moveBackwardN_getD_out _ _ _ _ (by omega)]
        exact hb1out j hj
      refine WF_mk ?_ ?_ ?_
      · rw [List.length_set, List.length_set, hb2len]
        omega
      · intro i hi
        rw [set_getD, List.length_set, hb2len]
        by_cases hie : i = dist
        · rw [if_pos ⟨hie.symm, by omega⟩]
          simp
        · rw [if_neg (by omega), set_getD, if_neg (by omega)]
          by_cases hlo : i < dist
          · rw [hb2out i (Or.inl hlo)]
            exact h2 i (by omega)
          · exact hb2slot i (by omega) (by omega)
      · intro i hil hi
        rw [List.length_set, List.length_set, hb2len] at hil
        rw [set_getD, if_neg (by omega), set_getD, if_neg (by omega),
          hb2out i (Or.inr (by omega))]
        exact h3 i hil (by omega)

theorem Erase_size (s : VecState V) (dist : Nat) : (Erase s dist).1.size = s.size - 1 :=
  rfl

theorem Erase_ret (s : VecState V) (dist : Nat) : (Erase s dist).2 = dist := rfl

theorem Erase_capacity (s : VecState V) (dist : Nat) :
    Capacity (Erase s dist).1 = Capacity s := by
  unfold Erase Capacity
  rw [List.length_set, moveLeftN_length]

theorem Erase_slot_lt (s : VecState V) (dist : Nat) (hd : dist < s.size)
    (i : Nat) (hi : i < dist) : slotAt (Erase s dist).1 i = slotAt s i := by
  unfold Erase slotAt
  rw [set_getD, if_neg (by omega), moveLeftN_getD_lt _ _ _ _ (by omega)]

theorem Erase_slot_shift (s : VecState V) (dist : Nat) (h : s.size ≤ Capacity s)
    (hd : dist < s.size) (i : Nat) (hi1 : dist ≤ i) (hi2 : i < s.size - 1) :
    slotAt (Erase s dist).1 i = slotAt s (i + 1) := by
  unfold Capacity at h
  unfold Erase slotAt
  rw [set_getD, if_neg (by omega),
    moveLeftN_getD_mid _ _ _ _ (by omega) (by omega) (by omega) (by omega)]

theorem wf_Erase {s : VecState V} (dist : Nat) (h : WF s) (hd : dist < s.size) :
    WF (Erase s dist).1 := by
  obtain ⟨h1, h2, h3, h4⟩ := h
  have hcap := Erase_capacity s dist
  unfold Capacity at hcap
  refine ⟨?_, ?_, ?_, ?_⟩
  · rw [hcap]
    show s.size - 1 ≤ s.buf.length
    omega
  · intro i hi
    have hi2 : i < s.size - 1 := hi
    by_cases hlo : i < dist
    · have := Erase_slot_lt s dist hd i hlo
      unfold slotAt at this
      rw [this]
      exact h2 i (by omega)
    · have := Erase_slot_shift s dist h1 hd i (by omega) hi2
      unfold slotAt at this
      rw [this]
      exact h2 (i + 1) (by omega)
  · intro i hil hi
    rw [hcap] at hil
    have hi2 : s.size - 1 ≤ i := hi
    show ((moveLeftN s.buf (dist + 1) (s.size - (dist + 1))).set (s.size - 1) none).getD
      i none = none
    rw [set_getD]
    by_cases hie : i = s.size - 1
    · rw [if_pos ⟨hie.symm, by rw [moveLeftN_length]; omega⟩]
    · rw [if_neg (by omega), moveLeftN_getD_ge _ _ _ _ (by omega)]
      exact h3 i hil (by omega)
  · intro hl
    rw [hcap] at hl
    show s.size - 1 = 0
    omega

theorem copyCtor_size (s : VecState V) : (copyCtor s).1.size = s.size := rfl

theorem copyCtor_src (s : VecState V) : (copyCtor s).2 = s := rfl

theorem copyCtor_capacity (s : VecState V) : Capacity (copyCtor s).1 = s.size := by
  unfold copyCtor Capacity
  rw [writeN_length, List.length_replicate]

theorem copyCtor_slot (s : VecState V) (h : s.size ≤ Capacity s)
    (i : Nat) (hi : i < s.size) : slotAt (copyCtor s).1 i = slotAt s i := by
  unfold Capacity at h
  unfold copyCtor slotAt
  have htk : (s.buf.take s.size).length = s.size := by
    rw [List.length_take]
    omega
  rw [writeN_getD, htk, List.length_replicate, if_pos ⟨by omega, by omega, by omega⟩]
  simp only [Nat.sub_zero]
  exact take_getD _ _ _ _ hi

theorem wf_copyCtor {s : VecState V} (h : WF s) : WF (copyCtor s).1 := by
  obtain ⟨h1, h2, h3, h4⟩ := h
  have hcap := copyCtor_capacity s
  unfold Capacity at hcap
  refine ⟨?_, ?_, ?_, ?_⟩
  · rw [hcap]
    show s.size ≤ s.size
    exact le_refl _
  · intro i hi
    have hi2 : i < s.size := hi
    have := copyCtor_slot s h1 i hi2
    unfold slotAt at this
    rw [this]
    exact h2 i hi2
  · intro i hil hi
    rw [hcap] at hil
    have hi2 : s.size ≤ i := hi
    omega
  · intro hl
    rw [hcap] at hl
    show s.size = 0
    exact hl

theorem copyAssign_capacity (t s : VecState V) :
    Capacity t ≤ Capacity (copyAssign t s) := by
  unfold copyAssign
  split
  · rename_i hlt
    rw [copyCtor_capacity]
    unfold Capacity
    omega
  · split
    · unfold Capacity
      rw [writeN_length]
    · unfold Capacity
      rw [writeN_length, writeN_length]

theorem wf_copyAssign {t s : VecState V} (ht : WF t) (hs : WF s) :
    WF (copyAssign t s) := by
  obtain ⟨t1, t2, t3, t4⟩ := ht
  obtain ⟨s1, s2, s3, s4⟩ := hs
  have htk : (s.buf.take s.size).length = s.size := by
    rw [List.length_take]
    omega
  unfold copyAssign
  split
  · rename_i hlt
    exact wf_copyCtor ⟨s1, s2, s3, s4⟩
  · rename_i hge
    split
    · rename_i hts
      refine WF_mk ?_ ?_ ?_
      · rw [writeN_length]
        omega
      · intro i hi
        rw [writeN_getD, htk, if_pos ⟨by omega, by omega, by omega⟩]
        simp only [Nat.sub_zero]
        rw [take_getD _ _ _ _ hi]
        exact s2 i hi
      · intro i hil hi
        rw [writeN_length] at hil
        rw [writeN_getD, htk, if_neg (by omega)]
        exact t3 i hil (by omega)
    · rename_i hts
      refine WF_mk ?_ ?_ ?_
      · rw [writeN_length, writeN_length]
        omega
      · intro i hi
        rw [writeN_getD, List.length_replicate, writeN_length,
          if_neg (by omega), writeN_getD, htk, if_pos ⟨by omega, by omega, by omega⟩]
        simp only [Nat.sub_zero]
        rw [take_getD _ _ _ _ hi]
        exact s2 i hi
      · intro i hil hi
        rw [writeN_length, writeN_length] at hil
        rw [writeN_getD, List.length_replicate, writeN_length]
        by_cases hmid : i < t.size
        · rw [if_pos ⟨by omega, by omega, by omega⟩, replicate_getD]
          split <;> rfl
        · rw [if_neg (by omega), writeN_getD, htk, if_neg (by omega)]
          exact t3 i hil (by omega)

theorem wf_empty : WF (⟨[], 0⟩ : VecState V) :=
  WF_mk (by simp) (fun i hi => by omega) (fun i hil hi => by simp at hil)

theorem wf_sized (n : Nat) (d : V) :
    WF ⟨List.replicate n (some (MVal.live d)), n⟩ :=
  WF_mk (by simp)
    (fun i hi => by rw [replicate_getD, if_pos hi]; simp)
    (fun i hil hi => by rw [List.length_replicate] at hil; omega)

theorem copyNBudget_ok (xs : List (Slot V)) (b : Nat) (h : xs.length ≤ b) :
    copyNBudget b xs = .ok xs := by
  induction xs generalizing b with
  | nil => cases b <;> rfl
  | cons x xs ih =>
    cases b with
    | zero => simp at h
    | succ b =>
      rw [copyNBudget, ih b (by simpa using h)]

theorem copyNBudget_error (xs : List (Slot V)) (b : Nat) (h : b < xs.length) :
    copyNBudget b xs = .error b := by
  induction xs generalizing b with
  | nil => simp at h
  | cons x xs ih =>
    cases b with
    | zero => rfl
    | succ b =>
      rw [copyNBudget, ih b (by simpa using h)]

theorem Reserve_capacity_mono (s : VecState V) (c : Nat) :
    Capacity s ≤ Capacity (Reserve s c) := by
  rw [Reserve_capacity]
  omega

theorem EmplaceBack_capacity_mono (s : VecState V) (x : V) :
    Capacity s ≤ Capacity (EmplaceBack s x) := by
  unfold Capacity EmplaceBack
  split
  · show _ ≤ ((Reserve s 1).buf.set 0 (some (MVal.live x))).length
    rw [List.length_set]
    have := Reserve_capacity s 1
    unfold Capacity at this
    omega
  · split
    · rename_i h0 hf
      show _ ≤ (writeN _ 0 _).length
      rw [writeN_length, List.length_set, List.length_replicate]
      omega
    · show _ ≤ (s.buf.set s.size (some (MVal.live x))).length
      rw [List.length_set]

theorem Emplace_capacity_mono (s : VecState V) (k : Nat) (x : V) :
    Capacity s ≤ Capacity (Emplace s k x) := by
  unfold Emplace
  split
  · exact EmplaceBack_capacity_mono s x
  · split
    · rename_i hne hle
      unfold Capacity
      show _ ≤ (writeN _ (k + 1) _).length
      rw [writeN_length, writeN_length, List.length_set, List.length_replicate]
      omega
    · unfold Capacity
      show _ ≤ (((moveBackwardN _ k (s.size - k)).set k none).set k
        (some (MVal.live x))).length
      rw [List.length_set, List.length_set, moveBackwardN_length,
        List.length_set, List.length_set]

/-! The claims. -/

/-- Claim C1 (refuted by the source, which here contradicts the stated safety
guarantee): on the reallocating copy branch of `Emplace` at offset 0 into a
full vector of one element, when the copy of the old element into the new
buffer throws, the destructor log on the new buffer is `[0, 0]` — slot 0,
holding the just-inserted element, is destroyed twice (once by the inner
catch via `destroy_n(new_data.GetAddress(), dist + 1)` and once more by the
outer catch via `destroy_n(new_data.GetAddress() + dist, 1)`). The claim
says no element is ever destroyed twice. -/
theorem C1_emplace_destroys_inserted_twice :
    EmplaceReallocCopy (⟨[some (MVal.live (0 : Nat))], 1⟩ : VecState Nat) 0 5 true 0 =
      Except.error (⟨[some (MVal.live 0)], 1⟩, [0, 0], true) ∧
    List.count 0 [0, 0] = 2 :=
  ⟨rfl, rfl⟩

/-- Claim C2 (refuted by the source): for a reallocating `Emplace` at offset
1 into a full vector `[10, 20]` whose copy of the second range throws, the
claim demands that exactly the already-copied front part (slot 0) and the
just-inserted element (slot 1) be destroyed — destructor log `[0, 1]`. The
source instead produces log `[0, 1, 1]`: the inserted element is destroyed a
second time by the outer catch. The second conjunct checks the other half of
the claim, which the source does satisfy: when constructing the inserted
element itself throws, nothing is destroyed, the new buffer is released and
the container is unchanged. -/
theorem C2_emplace_cleanup_destroys_three_times :
    (EmplaceReallocCopy (⟨[some (MVal.live (10 : Nat)), some (MVal.live 20)], 2⟩ :
        VecState Nat) 1 99 true 1 =
      Except.error (⟨[some (MVal.live 10), some (MVal.live 20)], 2⟩, [0, 1, 1], true)) ∧
    (EmplaceReallocCopy (⟨[some (MVal.live (10 : Nat)), some (MVal.live 20)], 2⟩ :
        VecState Nat) 1 99 false 0 =
      Except.error (⟨[some (MVal.live 10), some (MVal.live 20)], 2⟩, [], true)) :=
  ⟨rfl, rfl⟩

/-- Claim C3 (refuted by the source): the in-place `Emplace` at offset 0 into
`[10]` with spare capacity should end with the prior element 10 at index 1.
Because the source shifts with `move_backward(begin() + dist, end(), end() + 1)`
— whose source range still contains the already-moved-from last slot — the
move-constructed copy of 10 in slot 1 is overwritten by a moved-from husk,
and the value 10 is lost: the result is `[99, husk]`, not `[99, 10]`. -/
theorem C3_inplace_emplace_loses_last_value :
    Emplace (⟨[some (MVal.live (10 : Nat)), none], 1⟩ : VecState Nat) 0 99 =
      ⟨[some (MVal.live 99), some MVal.husk], 2⟩ ∧
    slotAt (Emplace (⟨[some (MVal.live (10 : Nat)), none], 1⟩ : VecState Nat) 0 99) 1 ≠
      some (MVal.live 10) :=
  ⟨rfl, by decide⟩

/-- Claim C4: if the `k`-th copy-construction during `Reserve c` (with
`c > capacity`) throws, the exception propagates with the container unchanged
(first component of the error), exactly `k - 1` destructors having run on the
aborted new buffer (second component: the rollback of
`uninitialized_copy_n`), and the new buffer released (third component). -/
theorem C4_reserve_rollback (s : VecState V) (c k : Nat)
    (hc : Capacity s < c) (hk1 : 1 ≤ k) (hk : k ≤ s.size) (hs : s.size ≤ Capacity s) :
    ReserveBudget s c (k - 1) = Except.error (s, k - 1, true) := by
  unfold Capacity at hc hs
  unfold ReserveBudget
  rw [if_neg (by omega), copyNBudget_error _ _ (by rw [List.length_take]; omega)]

/-- Witness for C4 (the spec scenario: the second of two copies throws). -/
theorem C4_reserve_rollback_witness :
    ReserveBudget (⟨[some (MVal.live (1 : Nat)), some (MVal.live 2)], 2⟩ :
        VecState Nat) 5 1 =
      Except.error (⟨[some (MVal.live 1), some (MVal.live 2)], 2⟩, 1, true) :=
  C4_reserve_rollback ⟨[some (MVal.live 1), some (MVal.live 2)], 2⟩ 5 2
    (by decide) (by decide) (by decide) (by decide)

/-- Claim C5: `PushBack` (which delegates to `EmplaceBack`) appends: the size
grows by one, the slot at the old size holds the new value, the values below
it are unchanged, and the reference returned by `EmplaceBack`
(`data_[size_ - 1]`) addresses the newly constructed element. -/
theorem C5_pushBack_appends (s : VecState V) (x : V) (h : s.size ≤ Capacity s) :
    (PushBack s x).size = s.size + 1 ∧
    slotAt (PushBack s x) s.size = some (MVal.live x) ∧
    (∀ i, i < s.size → slotAt (PushBack s x) i = slotAt s i) ∧
    slotAt (EmplaceBack s x) ((EmplaceBack s x).size - 1) = some (MVal.live x) :=
  ⟨EmplaceBack_size s x, EmplaceBack_slot_new s x h,
    fun i hi => EmplaceBack_slot_old s x i hi,
    by rw [EmplaceBack_size, Nat.add_sub_cancel]; exact EmplaceBack_slot_new s x h⟩

/-- Witness for C5: pushing 7 onto the empty vector. -/
theorem C5_pushBack_appends_witness :
    (PushBack (⟨[], 0⟩ : VecState Nat) 7).size = 0 + 1 ∧
    slotAt (PushBack (⟨[], 0⟩ : VecState Nat) 7) 0 = some (MVal.live 7) ∧
    (∀ i, i < 0 →
      slotAt (PushBack (⟨[], 0⟩ : VecState Nat) 7) i = slotAt ⟨[], 0⟩ i) ∧
    slotAt (EmplaceBack (⟨[], 0⟩ : VecState Nat) 7)
      ((EmplaceBack (⟨[], 0⟩ : VecState Nat) 7).size - 1) = some (MVal.live 7) :=
  C5_pushBack_appends ⟨[], 0⟩ 7 (by decide)

/-- Claim C6: `PushBack`, `EmplaceBack` and `Emplace` (at a valid offset)
reallocate exactly when `size == capacity`, the new capacity being
`max 1 (2 * capacity)`; and three pushes from a default-constructed empty
vector observe capacities 1, 2, 4. -/
theorem C6_growth_policy (s : VecState V) (x x1 x2 x3 : V) (dist : Nat)
    (h : s.size ≤ Capacity s) (hd : dist ≤ s.size) :
    Capacity (PushBack s x) =
      (if s.size = Capacity s then max 1 (2 * Capacity s) else Capacity s) ∧
    Capacity (EmplaceBack s x) =
      (if s.size = Capacity s then max 1 (2 * Capacity s) else Capacity s) ∧
    Capacity (Emplace s dist x) =
      (if s.size = Capacity s then max 1 (2 * Capacity s) else Capacity s) ∧
    Capacity (PushBack (⟨[], 0⟩ : VecState V) x1) = 1 ∧
    Capacity (PushBack (PushBack (⟨[], 0⟩ : VecState V) x1) x2) = 2 ∧
    Capacity (PushBack (PushBack (PushBack (⟨[], 0⟩ : VecState V) x1) x2) x3) = 4 :=
  ⟨EmplaceBack_capacity s x h, EmplaceBack_capacity s x h,
    Emplace_capacity s dist x h hd, rfl, rfl, rfl⟩

/-- Witness for C6: a full vector of one element, emplacing at offset 0. -/
theorem C6_growth_policy_witness :
    Capacity (PushBack (⟨[some (MVal.live (5 : Nat))], 1⟩ : VecState Nat) 9) =
      (if (1 : Nat) = Capacity (⟨[some (MVal.live (5 : Nat))], 1⟩ : VecState Nat) then
        max 1 (2 * Capacity (⟨[some (MVal.live (5 : Nat))], 1⟩ : VecState Nat))
      else Capacity (⟨[some (MVal.live (5 : Nat))], 1⟩ : VecState Nat)) ∧
    Capacity (EmplaceBack (⟨[some (MVal.live (5 : Nat))], 1⟩ : VecState Nat) 9) =
      (if (1 : Nat) = Capacity (⟨[some (MVal.live (5 : Nat))], 1⟩ : VecState Nat) then
        max 1 (2 * Capacity (⟨[some (MVal.live (5 : Nat))], 1⟩ : VecState Nat))
      else Capacity (⟨[some (MVal.live (5 : Nat))], 1⟩ : VecState Nat)) ∧
    Capacity (Emplace (⟨[some (MVal.live (5 : Nat))], 1⟩ : VecState Nat) 0 9) =
      (if (1 : Nat) = Capacity (⟨[some (MVal.live (5 : Nat))], 1⟩ : VecState Nat) then
        max 1 (2 * Capacity (⟨[some (MVal.live (5 : Nat))], 1⟩ : VecState Nat))
      else Capacity (⟨[some (MVal.live (5 : Nat))], 1⟩ : VecState Nat)) ∧
    Capacity (PushBack (⟨[], 0⟩ : VecState Nat) 1) = 1 ∧
    Capacity (PushBack (PushBack (⟨[], 0⟩ : VecState Nat) 1) 2) = 2 ∧
    Capacity (PushBack (PushBack (PushBack (⟨[], 0⟩ : VecState Nat) 1) 2) 3) = 4 :=
  C6_growth_policy ⟨[some (MVal.live 5)], 1⟩ 9 1 2 3 0 (by decide) (by decide)

/-- Claim C7: `Erase` at offset `dist < size` leaves the slots below `dist`
unchanged, shifts the values of `[dist + 1, size)` one slot left, decrements
the size, and returns the cursor at offset `dist`. -/
theorem C7_erase_shifts_left (s : VecState V) (dist : Nat)
    (h : s.size ≤ Capacity s) (hd : dist < s.size) :
    (Erase s dist).1.size = s.size - 1 ∧
    (∀ i, i < dist → slotAt (Erase s dist).1 i = slotAt s i) ∧
    (∀ i, dist ≤ i → i < s.size - 1 → slotAt (Erase s dist).1 i = slotAt s (i + 1)) ∧
    (Erase s dist).2 = dist :=
  ⟨Erase_size s dist, fun i hi => Erase_slot_lt s dist hd i hi,
    fun i h1 h2 => Erase_slot_shift s dist h hd i h1 h2, Erase_ret s dist⟩

/-- Witness for C7 (the spec scenario: erase the middle of `[10, 20, 30, 40, 50]`). -/
theorem C7_erase_shifts_left_witness :
    (Erase (⟨[some (MVal.live (10 : Nat)), some (MVal.live 20), some (MVal.live 30),
        some (MVal.live 40), some (MVal.live 50)], 5⟩ : VecState Nat) 2).1.size = 5 - 1 ∧
    (∀ i, i < 2 →
      slotAt (Erase (⟨[some (MVal.live (10 : Nat)), some (MVal.live 20),
        some (MVal.live 30), some (MVal.live 40), some (MVal.live 50)], 5⟩ :
          VecState Nat) 2).1 i =
      slotAt ⟨[some (MVal.live 10), some (MVal.live 20), some (MVal.live 30),
        some (MVal.live 40), some (MVal.live 50)], 5⟩ i) ∧
    (∀ i, 2 ≤ i → i < 5 - 1 →
      slotAt (Erase (⟨[some (MVal.live (10 : Nat)), some (MVal.live 20),
        some (MVal.live 30), some (MVal.live 40), some (MVal.live 50)], 5⟩ :
          VecState Nat) 2).1 i =
      slotAt ⟨[some (MVal.live 10), some (MVal.live 20), some (MVal.live 30),
        some (MVal.live 40), some (MVal.live 50)], 5⟩ (i + 1)) ∧
    (Erase (⟨[some (MVal.live (10 : Nat)), some (MVal.live 20), some (MVal.live 30),
        some (MVal.live 40), some (MVal.live 50)], 5⟩ : VecState Nat) 2).2 = 2 :=
  C7_erase_shifts_left ⟨[some (MVal.live 10), some (MVal.live 20), some (MVal.live 30),
    some (MVal.live 40), some (MVal.live 50)], 5⟩ 2 (by decide) (by decide)

/-- Claim C8: copy construction yields a vector of the same size whose
capacity is exactly that size, with the slots copied element-wise, and the
source is unchanged (second component of `copyCtor`). -/
theorem C8_copy_construction (s : VecState V) (h : s.size ≤ Capacity s) :
    (copyCtor s).1.size = s.size ∧
    Capacity (copyCtor s).1 = s.size ∧
    (∀ i, i < s.size → slotAt (copyCtor s).1 i = slotAt s i) ∧
    (copyCtor s).2 = s :=
  ⟨copyCtor_size s, copyCtor_capacity s, fun i hi => copyCtor_slot s h i hi,
    copyCtor_src s⟩

/-- Witness for C8: copying a vector of two elements with spare capacity. -/
theorem C8_copy_construction_witness :
    (copyCtor (⟨[some (MVal.live (4 : Nat)), some (MVal.live 6), none], 2⟩ :
      VecState Nat)).1.size = 2 ∧
    Capacity (copyCtor (⟨[some (MVal.live (4 : Nat)), some (MVal.live 6), none], 2⟩ :
      VecState Nat)).1 = 2 ∧
    (∀ i, i < 2 →
      slotAt (copyCtor (⟨[some (MVal.live (4 : Nat)), some (MVal.live 6), none], 2⟩ :
        VecState Nat)).1 i =
      slotAt ⟨[some (MVal.live 4), some (MVal.live 6), none], 2⟩ i) ∧
    (copyCtor (⟨[some (MVal.live (4 : Nat)), some (MVal.live 6), none], 2⟩ :
      VecState Nat)).2 = ⟨[some (MVal.live 4), some (MVal.live 6), none], 2⟩ :=
  C8_copy_construction ⟨[some (MVal.live 4), some (MVal.live 6), none], 2⟩ (by decide)

/-- Counterexample to claim C9 as stated: the invariants do not survive every
operation outcome. Starting from the well-formed vector `[0, 1]` with
capacity 3 (reachable by two pushes after reserving 3), the in-place branch
of `Emplace` at offset 0 whose final construction of the new element throws
leaves slot 0 destroyed while `size_` is still 2: a raw slot inside the live
range, violating the invariant. -/
theorem C9_counterexample :
    WF (⟨[some (MVal.live (0 : Nat)), some (MVal.live 1), none], 2⟩ : VecState Nat) ∧
    ¬ WF (EmplaceInPlaceCtorThrow
      (⟨[some (MVal.live (0 : Nat)), some (MVal.live 1), none], 2⟩ : VecState Nat) 0) := by
  constructor
  · unfold WF
    decide
  · unfold WF
    decide

/-- Claim C9, amended: for every state reachable through operations that
complete normally (no exception), the invariants hold: `size <= capacity`,
slots `[0, size)` hold constructed objects, slots `[size, capacity)` are
uninitialized, and zero capacity forces zero size. -/
theorem C9_invariants_reachable {s : VecState V} (h : Reachable s) : WF s := by
  induction h with
  | empty => exact wf_empty
  | sized n d => exact wf_sized n d
  | copy _ ih => exact wf_copyCtor ih
  | assign _ _ iht ihs => exact wf_copyAssign iht ihs
  | reserve c _ ih => exact wf_Reserve c ih
  | resize n d _ ih => exact wf_Resize n d ih
  | pushBack x _ ih => exact wf_EmplaceBack x ih
  | emplace k x _ hk ih => exact wf_Emplace k x ih hk
  | erase k _ hk ih => exact wf_Erase k ih hk
  | popBack _ hne ih => exact wf_PopBack ih hne

/-- Witness for the amended C9: the default-constructed vector. -/
theorem C9_invariants_reachable_witness : WF (⟨[], 0⟩ : VecState Nat) :=
  C9_invariants_reachable Reachable.empty

/-- Claim C10: capacity never decreases under `Reserve`, `Resize`,
`PushBack`, `EmplaceBack`, `Emplace`, `Insert`, `Erase`, `PopBack` and copy
assignment. -/
theorem C10_capacity_monotone (s t : VecState V) (c n k : Nat) (x d : V) :
    Capacity s ≤ Capacity (Reserve s c) ∧
    Capacity s ≤ Capacity (Resize s n d) ∧
    Capacity s ≤ Capacity (PushBack s x) ∧
    Capacity s ≤ Capacity (EmplaceBack s x) ∧
    Capacity s ≤ Capacity (Emplace s k x) ∧
    Capacity s ≤ Capacity (Insert s k x) ∧
    Capacity s ≤ Capacity (Erase s k).1 ∧
    Capacity s ≤ Capacity (PopBack s) ∧
    Capacity t ≤ Capacity (copyAssign t s) :=
  ⟨Reserve_capacity_mono s c, Resize_capacity s n d,
    EmplaceBack_capacity_mono s x, EmplaceBack_capacity_mono s x,
    Emplace_capacity_mono s k x, Emplace_capacity_mono s k x,
    le_of_eq (Erase_capacity s k).symm, le_of_eq (PopBack_capacity s).symm,
    copyAssign_capacity t s⟩

end AdvancedVector
